import Mathlib

/-!
# Verification of the nexus task-execution core

A shallow embedding, in Lean 4, of the concurrency core of the `nexus`
repository: the `Task` invocation wrapper (`include/nexus/exec/task.hpp`),
the policy-selected task-queue implementations
(`FIFO_TaskQueueInner`, `LIFO_TaskQueueInner`, `PRIO_TaskQueueInner`,
`RAND_TaskQueueInner`), the thread-safe `TaskQueue` wrapper
(`include/nexus/exec/queue.hpp`), the `Worker` lifecycle state machine
(`include/nexus/exec/worker.hpp`), and the `ThreadPool`
(`src/exec/pool.cpp`).

Concurrency is modelled by sequentialising each critical section: every
C++ operation below is performed under the corresponding object's mutex
(queue lock, worker lifecycle lock, pool lock), so an interleaved execution
is a sequence of these atomic steps.  Condition-variable waits are modelled
by their exit condition: a theorem about a completed wait carries the exit
condition as a hypothesis.

The `PRIO`/`RAND` inner queues store tasks in a `std::priority_queue`,
i.e. a binary max-heap over a contiguous array manipulated by
`std::push_heap` / `std::pop_heap`.  The repository is built with GCC
(libstdc++, see the nix flake); the heap routines are transcribed from
`bits/stl_heap.h` (`__push_heap`, `__adjust_heap`, `__pop_heap`) below.
-/

namespace Nexus

/-! ## Task

`Task<R>` (task.hpp) bundles a callable with decayed arguments and a
`std::promise`.  For queue-ordering purposes only two attributes matter.
The priority accessor `prio()` and the priority-only comparison used by the
`PRIO`/`RAND` queues are not present under `src/` (the `RAND` inner calls
`task.prio(...)` and `TaskHandle::operator<=>` compares the tasks, but the
`Task` revision defining them is absent), so they are modelled from the
spec.  `id` is a ghost field: it records insertion identity (the `std::list`
iterator held by a `TaskHandle` / the one-shot result channel paired with
the task) and is never consulted by any embedded operation. -/

/-- A queued task: `prio` — Modelled from the spec: "an integer priority in
the range [-128, 127], default 0", "Tasks are compared by priority only";
`id` — ghost identity of the task (its result channel / list node). -/
structure Task where
  priority : Int
  id : Nat
deriving Repr, DecidableEq, Inhabited

/-- The strict comparison used through `TaskHandle::operator<=>`.
Modelled from the spec: "Tasks are compared by priority only". -/
def taskLt (a b : Task) : Bool := a.priority < b.priority

/-- `Task::get_future()` hands out the task's one-shot completion handle;
in the model the handle is identified with the ghost channel id. -/
def Task.get_future (t : Task) : Nat := t.id

/-! ## Task invocation (`Task::_wrap_entry`, task.hpp)

The entry lambda runs the user function under `try`/`catch`:
normal return `v` → `res.set_value(v)` (or `res.set_value()` when the
invoke result type is `void`), any thrown object → `res.set_exception(...)`.
The user callable is embedded as `Unit → Except E V` (`.error` = throw);
the lambda's effect is embedded as the list of stores it performs on the
promise, so "exactly once" is the statement that this list is a
singleton, and "never propagates" is the fact that the embedding is a
total function into store lists (the `catch (...)` arm turns every throw
into a store). -/

/-- One resolved state of a task's result channel: a value or a captured
failure (`std::promise::set_value` / `set_exception`). -/
inductive TaskOutcome (E V : Type) where
  | value (v : V)
  | failure (e : E)
deriving Repr, DecidableEq

/-- The outcome delivered for one run of the user callable. -/
def outcome_of {E V : Type} : Except E V → TaskOutcome E V
  | .ok v => .value v
  | .error e => .failure e

/-- The promise stores performed by the `_wrap_entry` lambda when the
invoke result type is not `void`: `res.set_value(std::apply(func, args))`
on normal return, `res.set_exception(std::current_exception())` on throw. -/
def wrap_entry {E V : Type} (func : Unit → Except E V) : List (TaskOutcome E V) :=
  match func () with
  | .ok v => [TaskOutcome.value v]
  | .error e => [TaskOutcome.failure e]

/-- The promise stores performed by the `_wrap_entry` lambda in the
`if constexpr (std::is_same_v<InvokeResult, void>)` branch:
`std::apply(func, args); res.set_value();` on normal return. -/
def wrap_entry_void {E : Type} (func : Unit → Except E Unit) : List (TaskOutcome E Unit) :=
  match func () with
  | .ok _ => [TaskOutcome.value ()]
  | .error e => [TaskOutcome.failure e]

/-- Applying a sequence of stores to a result channel (each
`set_value`/`set_exception` on the yet-unresolved `std::promise` makes it
hold that outcome). -/
def run_stores {E V : Type} (stores : List (TaskOutcome E V))
    (ch : Option (TaskOutcome E V)) : Option (TaskOutcome E V) :=
  stores.foldl (fun _ o => some o) ch

/-! ## FIFO / LIFO inner queues

`FIFO_TaskQueueInner` and `LIFO_TaskQueueInner` each hold a
`std::deque<Task<>> _queue`; both `push` with `push_back`; FIFO `pop`s with
`front()`/`pop_front()`, LIFO with `back()`/`pop_back()`. -/

/-- `FIFO_TaskQueueInner::push` / `LIFO_TaskQueueInner::push`:
`_queue.push_back(std::move(task))`. -/
def deque_push (l : List Task) (t : Task) : List Task := l ++ [t]

/-- `FIFO_TaskQueueInner::pop`: move `_queue.front()` out, `pop_front()`.
(Only ever called on a non-empty queue; the default is dead.) -/
def fifo_pop (l : List Task) : Task × List Task := (l.headD default, l.tail)

/-- `LIFO_TaskQueueInner::pop`: move `_queue.back()` out, `pop_back()`.
(Only ever called on a non-empty queue; the default is dead.) -/
def lifo_pop (l : List Task) : Task × List Task := (l.getLastD default, l.dropLast)

/-! ## The libstdc++ binary heap (`bits/stl_heap.h`)

`std::priority_queue<TaskHandle>` is a max-heap over a vector; `push` is
`push_back` + `std::push_heap`, `pop` is `std::pop_heap` + `pop_back`, and
`top` is `front()`.  `TaskHandle::operator<=>` dereferences the stored
list iterators, so comparing handles is comparing tasks; the heap is
embedded directly over the tasks.  All index arithmetic below is on
`_Distance = ptrdiff_t`; every use keeps the operands in ranges where
`Nat` truncated subtraction agrees with signed division (noted at each
call site). -/

/-- Parent index in the implicit binary heap: `(holeIndex - 1) / 2`. -/
def parentI (i : Nat) : Nat := (i - 1) / 2

/-- `std::__push_heap(first, holeIndex, topIndex = 0, value)`: sift the
hole up while the parent compares less than `value`, then drop `value`
into the hole.  (For `holeIndex = 0` the C++ `parent = -1/2 = 0` is never
read, matching `Nat`'s `(0-1)/2 = 0`.) -/
def pushHeapAux (l : List Task) (hole : Nat) (v : Task) : List Task :=
  if 0 < hole ∧ taskLt (l.getD (parentI hole) default) v then
    pushHeapAux (l.set hole (l.getD (parentI hole) default)) (parentI hole) v
  else
    l.set hole v
termination_by hole
decreasing_by
  have : parentI hole < hole := by
    simp only [parentI]; omega
  omega

/-- `std::priority_queue::push`: `c.push_back(x); std::push_heap(...)`,
where `push_heap` calls `__push_heap(first, (last-first)-1, 0, x)`. -/
def heap_push (l : List Task) (v : Task) : List Task :=
  pushHeapAux (l ++ [v]) l.length v

/-- The hole-descent loop and single-child fixup of
`std::__adjust_heap(first, holeIndex, len, value)`, for a range of length
`l.length`: push the hole down along maximal children while it has two
children, then (even length, hole at the one single-child node) move the
last leaf up.  Returns the array with the moved elements and the final
hole index; `__adjust_heap` finishes by `__push_heap`-ing `value` from
that hole (`adjust_heap` below).  In every reachable call `l.length ≥ 1`,
where the `Nat` readings of `(len - 1) / 2`, `len & 1`, `(len - 2) / 2`
agree with the signed C++ readings. -/
def adjustDown (l : List Task) (hole : Nat) : List Task × Nat :=
  if _h : hole < (l.length - 1) / 2 then
    let sc0 := 2 * (hole + 1)
    let sc := if taskLt (l.getD sc0 default) (l.getD (sc0 - 1) default) then sc0 - 1 else sc0
    adjustDown (l.set hole (l.getD sc default)) sc
  else if l.length % 2 = 0 ∧ hole = (l.length - 2) / 2 then
    (l.set hole (l.getD (2 * (hole + 1) - 1) default), 2 * (hole + 1) - 1)
  else
    (l, hole)
termination_by l.length - hole
decreasing_by
  simp only [List.length_set]
  split <;> omega

/-- `std::__adjust_heap(first, 0, len, value)` on a range of length
`l.length`: hole descent, then `__push_heap(first, holeIndex, 0, value)`. -/
def adjust_heap (l : List Task) (v : Task) : List Task :=
  let (l', hole) := adjustDown l 0
  pushHeapAux l' hole v

/-- `std::priority_queue::pop` preceded by reading `top()` (as
`PRIO_TaskQueueInner::pop` does): returns `(c.front(), c after
pop_heap + pop_back)`.  `std::pop_heap` does nothing for `n ≤ 1`;
otherwise `__pop_heap(first, last-1, result = last-1)` saves
`value = *(last-1)`, writes `*(last-1) = *first` and runs
`__adjust_heap(first, 0, n-1, value)`.  The write to slot `n-1` is
outside the adjusted range `[0, n-1)` and is discarded by `pop_back`,
and `__adjust_heap` touches only indices `< n-1`, so the surviving array
is exactly `adjust_heap` applied to the length-`n-1` prefix. -/
def heap_pop (l : List Task) : Task × List Task :=
  (l.getD 0 default,
    if l.length ≤ 1 then []
    else adjust_heap l.dropLast (l.getD (l.length - 1) default))

/-! ## The four inner queues behind `TaskQueue`

`detail::TaskQueueInner` (private/exec/queue.hpp) is the virtual
interface; the concrete subclasses are the two deques above and the two
heap queues.  `PRIO_TaskQueueInner` pushes the task and indexes it in the
heap; `RAND_TaskQueueInner` additionally overwrites the priority with a
fresh random `int8_t` (`task.prio(_random_prio())`) before storing — the
drawn value enters the embedding as an explicit oracle argument `rnd`.
`size()` returns `_queue.size()` for the heap queues and
`_queue.size()` of the deque for the others. -/

/-- The state of a `detail::TaskQueueInner`: which concrete subclass was
instantiated, and its contents. -/
inductive InnerState where
  | fifo (l : List Task)
  | lifo (l : List Task)
  | prioH (l : List Task)
  | randH (l : List Task)
deriving Repr, DecidableEq

/-- `TaskQueueInner::push` of each subclass.  `rnd` is the oracle for
`RAND_TaskQueueInner::_random_prio()`; the other three ignore it. -/
def inner_push (s : InnerState) (t : Task) (rnd : Int) : InnerState :=
  match s with
  | .fifo l => .fifo (deque_push l t)
  | .lifo l => .lifo (deque_push l t)
  | .prioH l => .prioH (heap_push l t)
  | .randH l => .randH (heap_push l { t with priority := rnd })

/-- `TaskQueueInner::pop` of each subclass (only called non-empty). -/
def inner_pop (s : InnerState) : Task × InnerState :=
  match s with
  | .fifo l => let (t, l') := fifo_pop l; (t, .fifo l')
  | .lifo l => let (t, l') := lifo_pop l; (t, .lifo l')
  | .prioH l => let (t, l') := heap_pop l; (t, .prioH l')
  | .randH l => let (t, l') := heap_pop l; (t, .randH l')

/-- `TaskQueueInner::size` of each subclass. -/
def inner_size (s : InnerState) : Nat :=
  match s with
  | .fifo l => l.length
  | .lifo l => l.length
  | .prioH l => l.length
  | .randH l => l.length

/-! ## TaskQueue (queue.hpp + its out-of-line definitions)

`TaskQueue` owns one `TaskQueueInner` chosen at construction through the
static map `POLICY_CREATOR`, a mutex, a condition variable and an atomic
`_size`.  The spec's API lists `TaskPolicy ∈ {FIFO, LIFO, PRIO, RAND}`;
the `TaskPolicy` enum in policy.hpp declares only `FIFO` and `LIFO`, and
`POLICY_CREATOR` is initialised with exactly the two entries
`{TaskPolicy::FIFO, detail::_make_fifo_queue}` and
`{TaskPolicy::LIFO, detail::_make_lifo_queue}` —
`detail::_make_prio_queue` / `detail::_make_rand_queue` exist and are
declared in private/exec/queue.hpp but are registered under no key.
`SpecTaskPolicy` below is the spec's four-value policy space;
`POLICY_CREATOR` returns the created inner queue, or `none` where
`_inner(POLICY_CREATOR.at(policy)())` would throw `std::out_of_range`
because the map holds no such key (for `PRIO`/`RAND` the enum value does
not even exist to name the key). -/

/-- The spec's policy space: "`TaskPolicy ∈ {FIFO, LIFO, PRIO, RAND}`"
(spec §6; README "TaskQueue supports four policies").  The source enum
(policy.hpp) declares only the first two. -/
inductive SpecTaskPolicy where
  | FIFO
  | LIFO
  | PrioPol
  | RandPol
deriving Repr, DecidableEq

/-- The `TaskQueue::POLICY_CREATOR` map: the freshly created inner queue
for the keys present in the map, `none` for policies with no entry. -/
def POLICY_CREATOR : SpecTaskPolicy → Option InnerState
  | .FIFO => some (.fifo [])
  | .LIFO => some (.lifo [])
  | .PrioPol => none
  | .RandPol => none

/-- The state of a `TaskQueue`: the inner queue and the atomic `_size`
counter (`std::atomic_size_t _size{0}`). -/
structure TaskQueue where
  inner : InnerState
  size : Nat
deriving Repr, DecidableEq

/-- `TaskQueue::TaskQueue(TaskPolicy policy)`:
`_inner(POLICY_CREATOR.at(policy)())`, `_size` zero-initialised; `none`
when `.at` finds no key and throws. -/
def mkTaskQueue (policy : SpecTaskPolicy) : Option TaskQueue :=
  (POLICY_CREATOR policy).map fun s => { inner := s, size := 0 }

/-- `TaskQueue::push`: under `_lock`, `_inner->push(task)`,
`_size.fetch_add(1)`, then `notify_one` (no further state). -/
def queue_push (q : TaskQueue) (t : Task) (rnd : Int) : TaskQueue :=
  { inner := inner_push q.inner t rnd, size := q.size + 1 }

/-- `TaskQueue::_pop_impl`: `_inner->pop()`, `_size.fetch_sub(1)`.
Reached only with the lock held and the queue non-empty. -/
def queue_pop_impl (q : TaskQueue) : Task × TaskQueue :=
  let (t, s) := inner_pop q.inner
  (t, { inner := s, size := q.size - 1 })

/-- One evaluation of the wait lambda of `TaskQueue::pop(F&& pred)`:
`if (pred()) { is_user_pred = true; return true; } return !this->empty();`.
First component: whether the wait exits; second: the `is_user_pred`
latch as left by this (final) evaluation. -/
def wait_check (pred is_empty : Bool) : Bool × Bool :=
  if pred then (true, true) else (!is_empty, false)

/-- `TaskQueue::pop(F&& pred)` (the predicate-guarded pop, used by the
worker as `pop_until`), at the moment its wait completes: if the final
predicate evaluation set `is_user_pred`, return `{}` without touching the
queue; otherwise `_pop_impl()`.  Meaningful under the wait's exit
condition `(wait_check pred (q.size == 0)).1 = true`; theorems carry it. -/
def queue_pop_until (pred : Bool) (q : TaskQueue) : Option Task × TaskQueue :=
  let (_, is_user_pred) := wait_check pred (q.size == 0)
  if is_user_pred then (none, q)
  else
    let (t, q') := queue_pop_impl q
    (some t, q')

/-- States a `TaskQueue` can reach from construction by serialized
`push` / successful-`pop` operations.  Construction is taken over every
inner-queue subclass (the two `POLICY_CREATOR` registers, plus the
`PRIO`/`RAND` inners it leaves unregistered, so the invariant covers all
four `TaskQueueInner` implementations). -/
inductive QReach : TaskQueue → Prop where
  | init (s₀ : InnerState) (h : inner_size s₀ = 0) : QReach { inner := s₀, size := 0 }
  | push (q : TaskQueue) (t : Task) (rnd : Int) : QReach q → QReach (queue_push q t rnd)
  | pop (q : TaskQueue) : QReach q → q.size ≠ 0 → QReach (queue_pop_impl q).2

/-! ## Worker (worker.hpp + its out-of-line definitions)

A `Worker` is an OS thread plus the shared `Inner` record holding
`std::atomic<Status> status`, a mutex and the cancel condvar.  `run`,
`cancel` and `uncancel` each execute entirely under `_inner->lock`; they
are embedded as atomic functions `Status → Status × Bool` (new status,
return value). Thread spawning itself is assumed to succeed (`run`'s
`make_unique<jthread>` result is not inspected by the source). -/

/-- `Worker::Status` (worker.hpp). -/
inductive WStatus where
  | Create
  | Running
  | CancelWait
  | Cancel
deriving Repr, DecidableEq

/-- `Worker::run`: fails on `Running`/`CancelWait`, otherwise spawns the
loop thread and stores `Running`. -/
def worker_run : WStatus → WStatus × Bool
  | .Running => (.Running, false)
  | .CancelWait => (.CancelWait, false)
  | _ => (.Running, true)

/-- `Worker::cancel`: fails on `Cancel`/`Create`, otherwise stores
`CancelWait`. -/
def worker_cancel : WStatus → WStatus × Bool
  | .Cancel => (.Cancel, false)
  | .Create => (.Create, false)
  | _ => (.CancelWait, true)

/-- `Worker::uncancel`: `Running` fails; `CancelWait` resumes to
`Running`; any other status falls through to `run()`. -/
def worker_uncancel : WStatus → WStatus × Bool
  | .Running => (.Running, false)
  | .CancelWait => (.Running, true)
  | s => worker_run s

/-! ### The worker loop (`Worker::_worker_loop`)

Each loop iteration: `queue->pop([&]{ return status == CancelWait; })`;
if a task came back, invoke it; then take the lifecycle lock and, if the
status is `CancelWait`, store `Cancel`, broadcast and break.  The
iteration is embedded as the sequence of externally visible events it
performs, in program order.  The status is read at exactly two points —
inside the pop predicate and at the final check — embedded as the two
observed values `s_pop` (the read that completed the wait) and `s_chk`
(the read under the lock); a concurrent `cancel` may change the status
between the two, never in the middle of the task invocation, which
performs no status access. -/

/-- Externally visible events of one worker-loop iteration. -/
inductive WEvent where
  | evPop (res : Option Task)
  | evInvoke (t : Task)
  | evCheck (s : WStatus)
  | evStoreCancel
  | evExit
deriving Repr, DecidableEq

/-- One iteration of `Worker::_worker_loop`: the pop (with the lifecycle
predicate evaluated on `s_pop`), the invocation if a task was returned,
then the locked status check on `s_chk`.  Returns the event trace in
program order, the queue afterwards, and whether the loop exits. -/
def worker_iter (s_pop s_chk : WStatus) (q : TaskQueue) :
    List WEvent × TaskQueue × Bool :=
  let res := (queue_pop_until (s_pop == WStatus.CancelWait) q).1
  let q' := (queue_pop_until (s_pop == WStatus.CancelWait) q).2
  let invokeEvs := match res with
    | some t => [WEvent.evInvoke t]
    | none => []
  if s_chk = WStatus.CancelWait then
    (WEvent.evPop res :: invokeEvs ++ [WEvent.evCheck s_chk, WEvent.evStoreCancel, WEvent.evExit],
      q', true)
  else
    (WEvent.evPop res :: invokeEvs ++ [WEvent.evCheck s_chk], q', false)

/-! ## ThreadPool (pool.cpp, pool header)

The pool owns the shared queue, `std::deque<Worker> _workers` (active)
and `std::list<Worker> _cancelled_workers`, all mutated under `_lock`.
Workers are represented by their lifecycle status (the only attribute the
pool-side operations consult). -/

/-- `ThreadPool::Config`. -/
structure Config where
  policy : SpecTaskPolicy
  max_workers : Nat
  min_workers : Nat
  init_workers : Nat
  remove_cancelled : Bool
deriving Repr, DecidableEq

/-- The pool-side state of a `ThreadPool`. -/
structure ThreadPool where
  cfg : Config
  queue : TaskQueue
  workers : List WStatus
  cancelled_workers : List WStatus
deriving Repr, DecidableEq

/-- `ThreadPool::_reuse_workers(need)`: while the cancelled collection is
non-empty and fewer than `need` were woken, move its front to the back of
`_workers` and `uncancel` it; return the count woken. -/
def reuse_workers (p : ThreadPool) (need : Nat) : ThreadPool × Nat :=
  match need, p.cancelled_workers with
  | 0, _ => (p, 0)
  | _ + 1, [] => (p, 0)
  | need + 1, w :: rest =>
    let p' := { p with
      workers := p.workers ++ [(worker_uncancel w).1],
      cancelled_workers := rest }
    let (p'', cnt) := reuse_workers p' need
    (p'', cnt + 1)

/-- `ThreadPool::_cancel_workers(need)`: while `_workers` is non-empty and
fewer than `need` were cancelled, move its front to the back of
`_cancelled_workers` and `cancel` it; finally `_queue->wakeup_all()`
(a broadcast, no queue-state change); return the count cancelled. -/
def cancel_workers (p : ThreadPool) (need : Nat) : ThreadPool × Nat :=
  match need, p.workers with
  | 0, _ => (p, 0)
  | _ + 1, [] => (p, 0)
  | need + 1, w :: rest =>
    let p' := { p with
      workers := rest,
      cancelled_workers := p.cancelled_workers ++ [(worker_cancel w).1] }
    let (p'', cnt) := cancel_workers p' need
    (p'', cnt + 1)

/-- `ThreadPool::_clean_cancelled_workers`: erase every worker of the
cancelled collection whose status is `Cancel`. -/
def clean_cancelled_workers (p : ThreadPool) : ThreadPool :=
  { p with cancelled_workers := p.cancelled_workers.filter (fun w => !(w == WStatus.Cancel)) }

/-- The `prev_size < new_size` arm of `resize_workers`: after reuse, for
each remaining shortfall `_workers.emplace_back(_queue)` (a fresh worker
in `Create`) followed by `_workers.back().run()`. -/
def spawn_workers (p : ThreadPool) : Nat → ThreadPool
  | 0 => p
  | k + 1 => spawn_workers { p with workers := p.workers ++ [(worker_run .Create).1] } k

/-- `ThreadPool::resize_workers(new_size)` under `_lock`: clamp
(`max` with `min_workers` then `min` with `max_workers`), return if no
change, grow by reuse-then-spawn, or shrink by cancelling from the front
of `_workers`, pruning `Cancel`led workers if `remove_cancelled`. -/
def resize_workers (p : ThreadPool) (new_size : Nat) : ThreadPool :=
  let ns := min (max new_size p.cfg.min_workers) p.cfg.max_workers
  let prev := p.workers.length
  if prev = ns then p
  else if prev < ns then
    let diff := ns - prev
    let r := reuse_workers p diff
    spawn_workers r.1 (diff - r.2)
  else
    let p' := (cancel_workers p (prev - ns)).1
    if p.cfg.remove_cancelled then clean_cancelled_workers p' else p'

/-- `ThreadPool::release` (pool header): under `_lock`,
`_cancel_workers(_workers.size())`. -/
def release (p : ThreadPool) : ThreadPool :=
  (cancel_workers p p.workers.length).1

/-- `ThreadPool::push(task)`: `auto fut = task.get_future();
_queue->push(std::move(task)); return fut;`.  Takes no pool lock and
touches no pool field. -/
def pool_push (p : ThreadPool) (t : Task) (rnd : Int) : Nat × ThreadPool :=
  (t.get_future, { p with queue := queue_push p.queue t rnd })

/-- `ThreadPool::ThreadPool(cfg)`: throw `std::range_error` when
`max_workers < min_workers`; otherwise create the queue for the policy
and `resize_workers(init_workers)`.  (`Config.policy` ranges over the
spec's four policies, so queue creation itself can fail for the
unregistered ones; that failure is the subject of the policy theorem.) -/
def mkThreadPool (cfg : Config) : Option ThreadPool :=
  if cfg.max_workers < cfg.min_workers then none
  else (mkTaskQueue cfg.policy).map fun q =>
    resize_workers { cfg := cfg, queue := q, workers := [], cancelled_workers := [] }
      cfg.init_workers

/-! ## Drains and reachable states (verification harness definitions) -/

/-- Pop `n` times in a row through the given inner-queue pop, collecting
the dequeued tasks in order. -/
def drain_with (popf : List Task → Task × List Task) : Nat → List Task → List Task
  | 0, _ => []
  | n + 1, l =>
    let r := popf l
    r.1 :: drain_with popf n r.2

/-- `PRIO_TaskQueueInner` contents reachable from the freshly constructed
(empty) queue by serialized `push` / non-empty `pop` calls. -/
inductive PrioReachable : List Task → Prop where
  | init : PrioReachable []
  | push (l : List Task) (t : Task) : PrioReachable l → PrioReachable (heap_push l t)
  | pop (l : List Task) : PrioReachable l → l ≠ [] → PrioReachable (heap_pop l).2

/-- Concrete configuration used to exhibit pool behaviour (the `blank`
builder preset: FIFO, max 16, min 1, init 8, keep cancelled). -/
def cex_cfg : Config :=
  { policy := .FIFO, max_workers := 16, min_workers := 1,
    init_workers := 8, remove_cancelled := false }

/-- The pool state handed to `resize_workers(init_workers)` by the
`ThreadPool` constructor under `cex_cfg`. -/
def cex_pool0 : ThreadPool :=
  { cfg := cex_cfg, queue := { inner := .fifo [], size := 0 },
    workers := [], cancelled_workers := [] }

/-- Four equal-priority tasks, pushed in id order, for the PRIO
tie-breaking counterexample. -/
def cex_prio_pushes : List Task := [⟨0, 0⟩, ⟨0, 1⟩, ⟨0, 2⟩, ⟨0, 3⟩]

/-- The `PRIO_TaskQueueInner` state after pushing `cex_prio_pushes`. -/
def cex_prio_heap : List Task := cex_prio_pushes.foldl heap_push []

/-- A small reachable PRIO heap used as a witness instance. -/
def wit_prio_heap : List Task := heap_push (heap_push [] ⟨1, 0⟩) ⟨3, 1⟩

/-- A one-task FIFO `TaskQueue` used as a witness instance. -/
def wit_queue : TaskQueue := queue_push { inner := .fifo [], size := 0 } ⟨0, 5⟩ 0

/-! ## Heap-shape invariants (verification definitions) -/

/-- Priority stored at index `i` (default-padded read, as used by the heap
routines). -/
def pAt (l : List Task) (i : Nat) : Int := (l.getD i default).priority

/-- The binary max-heap invariant maintained by `std::push_heap` /
`std::pop_heap`: every non-root entry is at most its parent. -/
def IsHeap (l : List Task) : Prop :=
  ∀ i, 0 < i → i < l.length → pAt l i ≤ pAt l (parentI i)

/-- Invariant of the `__push_heap` sift-up: a heap with a hole at `hole`
and pending value `v` — every parent/child pair not involving the hole is
ordered, and every child of the hole is at most `v` and (when the hole is
not the root) at most the hole's parent. -/
def SiftUpInv (l : List Task) (hole : Nat) (v : Task) : Prop :=
  (∀ i, 0 < i → i < l.length → i ≠ hole → parentI i ≠ hole →
    pAt l i ≤ pAt l (parentI i)) ∧
  (∀ i, 0 < i → i < l.length → parentI i = hole →
    pAt l i ≤ v.priority ∧ (0 < hole → pAt l i ≤ pAt l (parentI hole)))

/-- Invariant of the `__adjust_heap` hole descent: every parent/child pair
not involving the hole is ordered, and every child of the hole is at most
the hole's parent (vacuous while the hole is the root). -/
def DownInv (l : List Task) (hole : Nat) : Prop :=
  (∀ i, 0 < i → i < l.length → i ≠ hole → parentI i ≠ hole →
    pAt l i ≤ pAt l (parentI i)) ∧
  (∀ i, 0 < i → i < l.length → parentI i = hole →
    (0 < hole → pAt l i ≤ pAt l (parentI hole)))

/-! ## Auxiliary lemmas about list access -/

theorem getD_eq_getElem' (l : List Task) (i : Nat) (h : i < l.length) :
    l.getD i default = l[i] :=
  List.getD_eq_getElem l default h

theorem pAt_set_self (l : List Task) (i : Nat) (x : Task) (h : i < l.length) :
    pAt (l.set i x) i = x.priority := by
  unfold pAt
  rw [getD_eq_getElem' _ _ (by simpa using h), List.getElem_set_self]

theorem pAt_set_ne (l : List Task) (i j : Nat) (x : Task) (h : i ≠ j) :
    pAt (l.set i x) j = pAt l j := by
  unfold pAt
  by_cases hj : j < l.length
  · rw [getD_eq_getElem' _ _ (by simpa using hj), getD_eq_getElem' _ _ hj,
      List.getElem_set_ne h]
  · rw [List.getD_eq_default _ _ (by simpa using Nat.le_of_not_lt hj),
      List.getD_eq_default _ _ (Nat.le_of_not_lt hj)]

theorem pAt_append_left (l : List Task) (x : Task) (i : Nat) (h : i < l.length) :
    pAt (l ++ [x]) i = pAt l i := by
  unfold pAt
  rw [getD_eq_getElem' _ _ h, getD_eq_getElem' _ _ (by simp; omega),
    List.getElem_append_left h]

theorem pAt_dropLast (l : List Task) (i : Nat) (h : i < l.length - 1) :
    pAt l.dropLast i = pAt l i := by
  unfold pAt
  rw [getD_eq_getElem' _ _ (by simpa using h), getD_eq_getElem' _ _ (by omega),
    List.getElem_dropLast]

theorem parentI_lt {i : Nat} (h : 0 < i) : parentI i < i := by
  simp only [parentI]; omega

theorem taskLt_iff (a b : Task) : taskLt a b = true ↔ a.priority < b.priority := by
  simp [taskLt]

/-! ## The heap invariant -/

theorem IsHeap.le_root {l : List Task} (hh : IsHeap l) :
    ∀ i, i < l.length → pAt l i ≤ pAt l 0 := by
  intro i
  induction i using Nat.strong_induction_on with
  | _ i ih =>
    intro hi
    rcases Nat.eq_zero_or_pos i with rfl | hpos
    · exact le_refl _
    · exact le_trans (hh i hpos hi)
        (ih (parentI i) (parentI_lt hpos) (Nat.lt_trans (parentI_lt hpos) hi))

theorem pushHeapAux_isHeap (hole : Nat) :
    ∀ (l : List Task) (v : Task), hole < l.length → SiftUpInv l hole v →
      IsHeap (pushHeapAux l hole v) := by
  induction hole using Nat.strong_induction_on with
  | _ hole ih =>
    intro l v hlen inv
    rw [pushHeapAux]
    split
    case isTrue hcond =>
      obtain ⟨hpos, hlt⟩ := hcond
      rw [taskLt_iff] at hlt
      set p := parentI hole with hp
      have hplt : p < hole := parentI_lt hpos
      have hplen : p < l.length := Nat.lt_trans hplt hlen
      apply ih p hplt _ v (by simpa using hplen)
      constructor
      · -- pairs not involving the new hole `p`
        intro i hi hilen hip hpip
        rw [List.length_set] at hilen
        have hine : i ≠ hole := fun h => hpip (h ▸ hp.symm ▸ rfl)
        rw [pAt_set_ne _ _ _ _ (fun h => hine h.symm)]
        by_cases hpih : parentI i = hole
        · -- `i` is a child of the old hole: bounded by the old hole's parent
          rw [hpih, pAt_set_self _ _ _ hlen]
          exact ((inv.2 i hi hilen hpih).2 hpos)
        · rw [pAt_set_ne _ _ _ _ (fun h => hpih h.symm)]
          exact inv.1 i hi hilen hine hpih
      · -- children of the new hole `p`
        intro i hi hilen hpi
        rw [List.length_set] at hilen
        have hpar_ne : 0 < p → parentI p ≠ hole :=
          fun hp0 => Nat.ne_of_lt (Nat.lt_trans (parentI_lt hp0) hplt)
        have hself : pAt l p ≤ v.priority := le_of_lt hlt
        have hup : 0 < p → pAt l p ≤ pAt l (parentI p) := by
          intro hp0
          exact inv.1 p hp0 hplen (Nat.ne_of_lt hplt) (hpar_ne hp0)
        by_cases hihole : i = hole
        · subst hihole
          rw [pAt_set_self _ _ _ hlen]
          refine ⟨hself, fun hp0 => ?_⟩
          rw [pAt_set_ne _ _ _ _ (fun h => (hpar_ne hp0) h.symm)]
          exact hup hp0
        · have hpi_ne_hole : parentI i ≠ hole := by
            rw [hpi]; exact Nat.ne_of_lt hplt
          have hbase : pAt l i ≤ pAt l p :=
            hpi ▸ inv.1 i hi hilen hihole hpi_ne_hole
          rw [pAt_set_ne _ _ _ _ (fun h => hihole h.symm)]
          refine ⟨le_trans hbase hself, fun hp0 => ?_⟩
          rw [pAt_set_ne _ _ _ _ (fun h => (hpar_ne hp0) h.symm)]
          exact le_trans hbase (hup hp0)
    case isFalse hcond =>
      intro i hi hilen
      rw [List.length_set] at hilen
      by_cases hih : i = hole
      · subst hih
        have hpos : 0 < i := hi
        have hnlt : ¬ taskLt (l.getD (parentI i) default) v := fun h => hcond ⟨hpos, h⟩
        have hge : v.priority ≤ pAt l (parentI i) := by
          have := (not_congr (taskLt_iff _ _)).mp hnlt
          simpa [pAt] using Int.not_lt.mp this
        rw [pAt_set_self _ _ _ hlen,
          pAt_set_ne _ _ _ _ (Nat.ne_of_gt (parentI_lt hpos))]
        exact hge
      · rw [pAt_set_ne _ _ _ _ (fun h => hih h.symm)]
        by_cases hpih : parentI i = hole
        · rw [hpih, pAt_set_self _ _ _ hlen]
          exact (inv.2 i hi hilen hpih).1
        · rw [pAt_set_ne _ _ _ _ (fun h => hpih h.symm)]
          exact inv.1 i hi hilen hih hpih

theorem heap_push_isHeap {l : List Task} (hh : IsHeap l) (v : Task) :
    IsHeap (heap_push l v) := by
  unfold heap_push
  apply pushHeapAux_isHeap _ _ _ (by simp)
  constructor
  · intro i hi hilen hine hpine
    simp only [List.length_append, List.length_cons, List.length_nil] at hilen
    have hil : i < l.length := by
      rcases Nat.lt_or_ge i l.length with h | h
      · exact h
      · exact absurd (by omega : i = l.length) hine
    have hpil : parentI i < l.length := Nat.lt_trans (parentI_lt hi) hil
    rw [pAt_append_left _ _ _ hil, pAt_append_left _ _ _ hpil]
    exact hh i hi hil
  · intro i hi hilen hpi
    exfalso
    have : parentI i < i := parentI_lt hi
    simp only [List.length_append, List.length_cons, List.length_nil] at hilen
    omega


/-! ## Lengths of the heap operations -/

theorem pushHeapAux_length (hole : Nat) :
    ∀ (l : List Task) (v : Task), (pushHeapAux l hole v).length = l.length := by
  induction hole using Nat.strong_induction_on with
  | _ hole ih =>
    intro l v
    rw [pushHeapAux]
    split
    case isTrue hc =>
      rw [ih (parentI hole) (parentI_lt hc.1), List.length_set]
    case isFalse hc =>
      rw [List.length_set]

theorem heap_push_length (l : List Task) (v : Task) :
    (heap_push l v).length = l.length + 1 := by
  rw [heap_push, pushHeapAux_length]
  simp

theorem adjustDown_length (l : List Task) (hole : Nat) :
    (adjustDown l hole).1.length = l.length := by
  induction l, hole using adjustDown.induct with
  | case1 l hole h sc0 sc ih =>
    rw [adjustDown, dif_pos h]
    rw [List.length_set] at ih
    exact ih
  | case2 l hole h1 h2 =>
    rw [adjustDown, dif_neg h1, if_pos h2]
    simp
  | case3 l hole h1 h2 =>
    rw [adjustDown, dif_neg h1, if_neg h2]

theorem heap_pop_length (l : List Task) :
    (heap_pop l).2.length = l.length - 1 := by
  rw [heap_pop]
  split
  case isTrue h => simp; omega
  case isFalse h =>
    rw [adjust_heap]
    rw [pushHeapAux_length, adjustDown_length, List.length_dropLast]

/-! ## The pop-side hole descent preserves the heap shape -/

theorem adjustDown_spec (l : List Task) (hole : Nat) :
    hole < l.length → DownInv l hole →
      (adjustDown l hole).2 < l.length ∧
      l.length ≤ 2 * (adjustDown l hole).2 + 1 ∧
      DownInv (adjustDown l hole).1 (adjustDown l hole).2 := by
  induction l, hole using adjustDown.induct with
  | case1 l hole h sc0 sc ih =>
    intro hlen inv
    have heq : adjustDown l hole = adjustDown (l.set hole (l.getD sc default)) sc := by
      rw [adjustDown, dif_pos h]
      rfl
    rw [heq]
    have hsc0 : sc0 = 2 * (hole + 1) := rfl
    have hscv : sc = if taskLt (l.getD sc0 default) (l.getD (sc0 - 1) default) = true
        then sc0 - 1 else sc0 := rfl
    have hsc_range : sc = 2 * hole + 1 ∨ sc = 2 * hole + 2 := by
      rw [hscv, hsc0]; split <;> omega
    have hsc_ub : sc < l.length := by
      have : 2 * hole + 2 < l.length := by omega
      omega
    have hsc_lb : hole < sc := by omega
    have hpar_sc : parentI sc = hole := by
      simp only [parentI]; omega
    -- the chosen child is the larger of the two
    have hmax : ∀ i, 0 < i → i < l.length → parentI i = hole → pAt l i ≤ pAt l sc := by
      intro i hi hil hpi
      have hi_range : i = 2 * hole + 1 ∨ i = 2 * hole + 2 := by
        simp only [parentI] at hpi; omega
      rcases eq_or_ne i sc with rfl | hine
      · exact le_refl _
      · have e1 : (2 : Nat) * (hole + 1) - 1 = 2 * hole + 1 := by omega
        have e2 : (2 : Nat) * (hole + 1) = 2 * hole + 2 := by ring
        rw [hscv, hsc0] at hine ⊢
        by_cases hc : taskLt (l.getD (2 * (hole + 1)) default)
            (l.getD (2 * (hole + 1) - 1) default) = true
        · rw [if_pos hc] at hine ⊢
          rw [taskLt_iff] at hc
          rw [e1] at hine hc ⊢
          rw [e2] at hc
          have hieq : i = 2 * hole + 2 := by omega
          subst hieq
          unfold pAt
          exact le_of_lt hc
        · rw [if_neg hc] at hine ⊢
          have hcle := (not_congr (taskLt_iff _ _)).mp hc
          rw [Int.not_lt] at hcle
          rw [e1] at hcle
          rw [e2] at hine hcle ⊢
          have hieq : i = 2 * hole + 1 := by omega
          subst hieq
          unfold pAt
          exact hcle
    have hlen' : sc < (l.set hole (l.getD sc default)).length := by
      rw [List.length_set]; exact hsc_ub
    have inv' : DownInv (l.set hole (l.getD sc default)) sc := by
      constructor
      · intro i hi hil hisc hpisc
        rw [List.length_set] at hil
        by_cases hihole : i = hole
        · subst hihole
          have hi0 : 0 < i := hi
          rw [pAt_set_self _ _ _ hlen]
          have hpar_ne : parentI i ≠ i := Nat.ne_of_lt (parentI_lt hi0)
          rw [pAt_set_ne _ _ _ _ (fun hx => hpar_ne hx.symm)]
          exact inv.2 sc (by omega) hsc_ub hpar_sc hi0
        · rw [pAt_set_ne _ _ _ _ (fun hx => hihole hx.symm)]
          by_cases hpih : parentI i = hole
          · rw [hpih, pAt_set_self _ _ _ hlen]
            exact hmax i hi hil hpih
          · rw [pAt_set_ne _ _ _ _ (fun hx => hpih hx.symm)]
            exact inv.1 i hi hil hihole hpih
      · intro i hi hil hpi hsc0pos
        rw [List.length_set] at hil
        have hisc : sc < i := by
          have := parentI_lt hi
          omega
        have hihole : i ≠ hole := by omega
        rw [pAt_set_ne _ _ _ _ (fun hx => hihole hx.symm), hpar_sc,
          pAt_set_self _ _ _ hlen]
        have := inv.1 i hi hil hihole (by rw [hpi]; omega)
        rw [hpi] at this
        exact this
    have := ih hlen' inv'
    rw [List.length_set] at this
    exact this
  | case2 l hole h1 h2 =>
    intro hlen inv
    have heq : adjustDown l hole =
        (l.set hole (l.getD (2 * (hole + 1) - 1) default), 2 * (hole + 1) - 1) := by
      rw [adjustDown, dif_neg h1, if_pos h2]
    rw [heq]
    obtain ⟨heven, hhole⟩ := h2
    -- even length, hole at the unique single-child node: the child is the
    -- last slot
    have hlast : 2 * (hole + 1) - 1 = l.length - 1 := by omega
    have hlen2 : 2 ≤ l.length := by omega
    have hchild_lt : 2 * (hole + 1) - 1 < l.length := by omega
    have hpar_last : parentI (l.length - 1) = hole := by
      simp only [parentI]; omega
    refine ⟨by simpa using hchild_lt, by simp [List.length_set]; omega, ?_, ?_⟩
    · intro i hi hil hine hpine
      rw [List.length_set] at hil
      rw [hlast] at hine hpine
      by_cases hihole : i = hole
      · subst hihole
        have hi0 : 0 < i := hi
        rw [hlast, pAt_set_self _ _ _ hlen]
        have hpar_ne : parentI i ≠ i := Nat.ne_of_lt (parentI_lt hi0)
        rw [pAt_set_ne _ _ _ _ (fun hx => hpar_ne hx.symm)]
        exact inv.2 (l.length - 1) (by omega) (by omega) hpar_last hi0
      · rw [hlast, pAt_set_ne _ _ _ _ (fun hx => hihole hx.symm)]
        by_cases hpih : parentI i = hole
        · exfalso
          simp only [parentI] at hpih
          omega
        · rw [pAt_set_ne _ _ _ _ (fun hx => hpih hx.symm)]
          exact inv.1 i hi hil hihole hpih
    · intro i hi hil hpi _
      exfalso
      rw [List.length_set] at hil
      have := parentI_lt hi
      simp only [parentI] at hpi
      omega
  | case3 l hole h1 h2 =>
    intro hlen inv
    have heq : adjustDown l hole = (l, hole) := by
      rw [adjustDown, dif_neg h1, if_neg h2]
    rw [heq]
    refine ⟨hlen, ?_, inv⟩
    rcases Nat.even_or_odd l.length with he | ho
    · have : l.length % 2 = 0 := Nat.even_iff.mp he
      have : hole ≠ (l.length - 2) / 2 := fun hx => h2 ⟨this, hx⟩
      omega
    · have : l.length % 2 = 1 := Nat.odd_iff.mp ho
      omega


/-! ## `__adjust_heap` + `__push_heap` preserve the heap invariant -/

theorem adjust_heap_eq (l : List Task) (v : Task) :
    adjust_heap l v = pushHeapAux (adjustDown l 0).1 (adjustDown l 0).2 v := rfl

theorem adjust_heap_isHeap (l : List Task) (v : Task) (h0 : 0 < l.length)
    (inv : DownInv l 0) : IsHeap (adjust_heap l v) := by
  rw [adjust_heap_eq]
  obtain ⟨hlt, hub, hinv⟩ := adjustDown_spec l 0 h0 inv
  apply pushHeapAux_isHeap
  · rw [adjustDown_length]; exact hlt
  · constructor
    · exact hinv.1
    · intro i hi hil hpi
      exfalso
      rw [adjustDown_length] at hil
      have h2i : 2 * (adjustDown l 0).2 + 1 ≤ i := by
        simp only [parentI] at hpi
        omega
      omega

theorem heap_pop_isHeap {l : List Task} (hh : IsHeap l) : IsHeap (heap_pop l).2 := by
  rw [heap_pop]
  dsimp only
  split
  case isTrue h1 =>
    intro i hi hil
    simp at hil
  case isFalse h1 =>
    apply adjust_heap_isHeap
    · rw [List.length_dropLast]; omega
    · constructor
      · intro i hi hil hine hpine
        rw [List.length_dropLast] at hil
        have hpil : parentI i < l.length - 1 := by
          have := parentI_lt hi
          omega
        rw [pAt_dropLast _ _ hil, pAt_dropLast _ _ hpil]
        exact hh i hi (by omega)
      · intro i hi hil hpi h0
        exact absurd h0 (lt_irrefl 0)

/-! ## The heap operations permute the stored tasks as claimed -/

theorem list_set_getD_self (l : List Task) (i : Nat) (h : i < l.length) :
    l.set i (l.getD i default) = l := by
  apply List.ext_getElem
  · simp
  · intro n h1 h2
    rcases eq_or_ne i n with rfl | hne
    · rw [List.getElem_set_self, getD_eq_getElem' _ _ h]
    · rw [List.getElem_set_ne hne]

theorem getD_set_ne (l : List Task) (i j : Nat) (x : Task) (h : i ≠ j) :
    (l.set i x).getD j default = l.getD j default := by
  by_cases hj : j < l.length
  · rw [getD_eq_getElem' _ _ (by simpa using hj), getD_eq_getElem' _ _ hj,
      List.getElem_set_ne h]
  · rw [List.getD_eq_default _ _ (by simpa using Nat.le_of_not_lt hj),
      List.getD_eq_default _ _ (Nat.le_of_not_lt hj)]

theorem count_set_add (l : List Task) (i : Nat) (h : i < l.length) (x y : Task) :
    (l.set i x).count y + (if l.getD i default = y then 1 else 0)
      = l.count y + (if x = y then 1 else 0) := by
  have hdec : l.set i x = l.take i ++ x :: l.drop (i + 1) := by
    rw [List.set_eq_take_append_cons_drop, if_pos h]
  have hdec2 : l = l.take i ++ (l.getD i default) :: l.drop (i + 1) := by
    rw [getD_eq_getElem' _ _ h]
    conv_lhs => rw [← List.take_append_drop i l, List.drop_eq_getElem_cons h]
  rw [hdec]
  conv_rhs => rw [hdec2]
  simp only [List.count_append, List.count_cons, beq_iff_eq]
  split_ifs <;> omega

theorem set_of_get_set_perm (l : List Task) (i j : Nat) (hij : i ≠ j)
    (hi : i < l.length) (hj : j < l.length) (x : Task) :
    ((l.set i (l.getD j default)).set j x).Perm (l.set i x) := by
  rw [List.perm_iff_count]
  intro y
  have h1 := count_set_add l i hi (l.getD j default) y
  have h2 := count_set_add (l.set i (l.getD j default)) j (by simpa using hj) x y
  have h3 := count_set_add l i hi x y
  simp only [getD_set_ne l i j (l.getD j default) hij] at h2
  split_ifs at h1 h2 h3 <;> omega

theorem pushHeapAux_perm (hole : Nat) :
    ∀ (l : List Task) (v : Task), hole < l.length →
      (pushHeapAux l hole v).Perm (l.set hole v) := by
  induction hole using Nat.strong_induction_on with
  | _ hole ih =>
    intro l v hlen
    rw [pushHeapAux]
    split
    case isTrue hc =>
      have hplt : parentI hole < hole := parentI_lt hc.1
      have hplen : parentI hole < l.length := Nat.lt_trans hplt hlen
      refine List.Perm.trans (ih (parentI hole) hplt _ v (by simpa using hplen)) ?_
      exact set_of_get_set_perm l hole (parentI hole) (Nat.ne_of_gt hplt) hlen hplen v
    case isFalse hc =>
      exact List.Perm.refl _

theorem heap_push_perm (l : List Task) (v : Task) :
    (heap_push l v).Perm (v :: l) := by
  unfold heap_push
  refine List.Perm.trans (pushHeapAux_perm l.length _ v (by simp)) ?_
  have hv : (l ++ [v]).getD l.length default = v := by
    rw [getD_eq_getElem' _ _ (by simp)]
    simp
  have hsetv : (l ++ [v]).set l.length v = l ++ [v] := by
    have hx := list_set_getD_self (l ++ [v]) l.length (by simp)
    rwa [hv] at hx
  rw [hsetv]
  exact List.perm_append_singleton v l

theorem adjustDown_hole_lt (l : List Task) (hole : Nat) :
    hole < l.length → (adjustDown l hole).2 < l.length := by
  induction l, hole using adjustDown.induct with
  | case1 l hole h sc0 sc ih =>
    intro hlen
    have heq : adjustDown l hole = adjustDown (l.set hole (l.getD sc default)) sc := by
      rw [adjustDown, dif_pos h]
      rfl
    rw [heq]
    have hscv : sc = if taskLt (l.getD sc0 default) (l.getD (sc0 - 1) default) = true
        then sc0 - 1 else sc0 := rfl
    have hsc0 : sc0 = 2 * (hole + 1) := rfl
    have hsc_ub : sc < l.length := by
      have : sc = 2 * hole + 1 ∨ sc = 2 * hole + 2 := by
        rw [hscv, hsc0]; split <;> omega
      omega
    have := ih (by simpa using hsc_ub)
    rw [List.length_set] at this
    exact this
  | case2 l hole h1 h2 =>
    intro hlen
    have heq : adjustDown l hole =
        (l.set hole (l.getD (2 * (hole + 1) - 1) default), 2 * (hole + 1) - 1) := by
      rw [adjustDown, dif_neg h1, if_pos h2]
    rw [heq]
    obtain ⟨heven, hhole⟩ := h2
    omega
  | case3 l hole h1 h2 =>
    intro hlen
    have heq : adjustDown l hole = (l, hole) := by
      rw [adjustDown, dif_neg h1, if_neg h2]
    rw [heq]
    exact hlen

theorem adjustDown_perm (l : List Task) (hole : Nat) :
    hole < l.length → ∀ x : Task,
      (((adjustDown l hole).1.set (adjustDown l hole).2 x)).Perm (l.set hole x) := by
  induction l, hole using adjustDown.induct with
  | case1 l hole h sc0 sc ih =>
    intro hlen x
    have heq : adjustDown l hole = adjustDown (l.set hole (l.getD sc default)) sc := by
      rw [adjustDown, dif_pos h]
      rfl
    rw [heq]
    have hscv : sc = if taskLt (l.getD sc0 default) (l.getD (sc0 - 1) default) = true
        then sc0 - 1 else sc0 := rfl
    have hsc0 : sc0 = 2 * (hole + 1) := rfl
    have hsc_range : sc = 2 * hole + 1 ∨ sc = 2 * hole + 2 := by
      rw [hscv, hsc0]; split <;> omega
    have hsc_ub : sc < l.length := by omega
    refine List.Perm.trans (ih (by simpa using hsc_ub) x) ?_
    exact set_of_get_set_perm l hole sc (by omega) hlen hsc_ub x
  | case2 l hole h1 h2 =>
    intro hlen x
    have heq : adjustDown l hole =
        (l.set hole (l.getD (2 * (hole + 1) - 1) default), 2 * (hole + 1) - 1) := by
      rw [adjustDown, dif_neg h1, if_pos h2]
    rw [heq]
    obtain ⟨heven, hhole⟩ := h2
    exact set_of_get_set_perm l hole (2 * (hole + 1) - 1) (by omega) hlen (by omega) x
  | case3 l hole h1 h2 =>
    intro hlen x
    have heq : adjustDown l hole = (l, hole) := by
      rw [adjustDown, dif_neg h1, if_neg h2]
    rw [heq]

theorem heap_pop_perm (l : List Task) (h : l ≠ []) :
    ((heap_pop l).1 :: (heap_pop l).2).Perm l := by
  have hpos : 0 < l.length := List.length_pos.mpr h
  rw [heap_pop]
  dsimp only
  split
  case isTrue h1 =>
    have hlen1 : l.length = 1 := by omega
    obtain ⟨a, rfl⟩ := List.length_eq_one.mp hlen1
    simp
  case isFalse h1 =>
    have hlen2 : 2 ≤ l.length := by omega
    have hb : l.dropLast.length = l.length - 1 := List.length_dropLast l
    have hbpos : 0 < l.dropLast.length := by omega
    have hbne : l.dropLast ≠ [] := List.length_pos.mp hbpos
    set b := l.dropLast with hbdef
    set v := l.getD (l.length - 1) default with hvdef
    -- the adjusted remainder is a permutation of `b` with `v` at the root slot
    have hrest : (adjust_heap b v).Perm (b.set 0 v) := by
      rw [adjust_heap_eq]
      refine List.Perm.trans (pushHeapAux_perm _ _ v ?_) (adjustDown_perm b 0 hbpos v)
      rw [adjustDown_length]
      exact adjustDown_hole_lt b 0 hbpos
    have hset0 : b.set 0 v = v :: b.tail := by
      cases hbl : b with
      | nil => exact absurd hbl hbne
      | cons a t => rfl
    have hrest2 : (adjust_heap b v).Perm (v :: b.tail) := by
      rw [← hset0]
      exact hrest
    -- the saved value is the last element, and the popped front is `b`'s head
    have hvlast : v = l.getLast h := by
      rw [hvdef, getD_eq_getElem' _ _ (by omega), List.getLast_eq_getElem]
    have hlsplit : b ++ [v] = l := by
      rw [hvlast, hbdef]
      exact List.dropLast_append_getLast h
    have hhead : l.getD 0 default = b.head hbne := by
      rw [getD_eq_getElem' _ _ hpos, ← List.getElem_zero hbpos,
        List.getElem_dropLast]
    refine List.Perm.trans (List.Perm.cons (l.getD 0 default) hrest2) ?_
    rw [hhead]
    refine List.Perm.trans (List.Perm.swap v (b.head hbne) b.tail) ?_
    rw [List.head_cons_tail]
    refine List.Perm.trans (List.perm_append_singleton v b).symm ?_
    rw [hlsplit]


/-! ## Reachable PRIO states are heaps; the popped task is maximal -/

theorem PrioReachable.isHeap {l : List Task} (h : PrioReachable l) : IsHeap l := by
  induction h with
  | init => intro i hi hil; simp at hil
  | push l t _ ih => exact heap_push_isHeap ih t
  | pop l _ _ ih => exact heap_pop_isHeap ih

theorem isHeap_pop_max {l : List Task} (hh : IsHeap l) :
    ∀ t ∈ l, t.priority ≤ (heap_pop l).1.priority := by
  intro t ht
  have hpos : 0 < l.length := List.length_pos.mpr (List.ne_nil_of_mem ht)
  obtain ⟨i, hi, rfl⟩ := List.mem_iff_getElem.mp ht
  have hroot := hh.le_root i hi
  have h1 : (heap_pop l).1 = l.getD 0 default := rfl
  have h2 : pAt l i = l[i].priority := by
    unfold pAt
    rw [getD_eq_getElem' _ _ hi]
  have h3 : pAt l 0 = (l.getD 0 default).priority := rfl
  rw [h1]
  omega

/-! ## FIFO / LIFO drain order -/

theorem foldl_deque_push (ts : List Task) :
    ∀ l : List Task, ts.foldl deque_push l = l ++ ts := by
  induction ts with
  | nil => intro l; simp
  | cons t ts ih =>
    intro l
    rw [List.foldl_cons, ih]
    simp [deque_push]

theorem drain_with_fifo (l : List Task) :
    drain_with fifo_pop l.length l = l := by
  induction l with
  | nil => rfl
  | cons a t ih =>
    simp only [List.length_cons, drain_with, fifo_pop]
    simpa using ih

theorem drain_with_lifo (l : List Task) :
    drain_with lifo_pop l.length l = l.reverse := by
  induction l using List.reverseRecOn with
  | nil => rfl
  | append_singleton b x ih =>
    have hlen : (b ++ [x]).length = b.length + 1 := by simp
    rw [hlen]
    simp only [drain_with, lifo_pop]
    rw [List.getLastD_concat, List.dropLast_concat]
    simp [ih]

/-! ## TaskQueue size-counter facts -/

theorem inner_push_size (s : InnerState) (t : Task) (rnd : Int) :
    inner_size (inner_push s t rnd) = inner_size s + 1 := by
  cases s <;> simp [inner_push, inner_size, deque_push, heap_push_length]

theorem inner_pop_size (s : InnerState) :
    inner_size (inner_pop s).2 = inner_size s - 1 := by
  cases s <;>
    simp [inner_pop, inner_size, fifo_pop, lifo_pop, heap_pop_length, List.length_dropLast]

theorem queue_pop_impl_snd (q : TaskQueue) :
    (queue_pop_impl q).2 = { inner := (inner_pop q.inner).2, size := q.size - 1 } := rfl

theorem queue_pop_impl_fst (q : TaskQueue) :
    (queue_pop_impl q).1 = (inner_pop q.inner).1 := rfl

theorem qreach_size {q : TaskQueue} (h : QReach q) : q.size = inner_size q.inner := by
  induction h with
  | init s₀ h0 => exact h0.symm
  | push q t rnd _ ih =>
    show q.size + 1 = inner_size (inner_push q.inner t rnd)
    rw [inner_push_size, ih]
  | pop q _ _ ih =>
    rw [queue_pop_impl_snd]
    show q.size - 1 = inner_size (inner_pop q.inner).2
    rw [inner_pop_size, ih]

/-! ## ThreadPool bookkeeping -/

theorem reuse_workers_spec (need : Nat) :
    ∀ p : ThreadPool,
      (reuse_workers p need).1.workers.length
          = p.workers.length + min need p.cancelled_workers.length ∧
        (reuse_workers p need).2 = min need p.cancelled_workers.length ∧
        (reuse_workers p need).1.cfg = p.cfg ∧
        (reuse_workers p need).1.queue = p.queue := by
  induction need with
  | zero => intro p; simp [reuse_workers]
  | succ need ih =>
    intro p
    obtain ⟨pc, pq, pw, pcw⟩ := p
    cases pcw with
    | nil => simp [reuse_workers]
    | cons w rest =>
      simp only [reuse_workers]
      have := ih {
        cfg := pc, queue := pq,
        workers := pw ++ [(worker_uncancel w).1], cancelled_workers := rest }
      simp only [List.length_append, List.length_cons, List.length_nil] at this ⊢
      obtain ⟨e1, e2, e3, e4⟩ := this
      refine ⟨by rw [e1]; omega, by rw [e2]; omega, e3, e4⟩

theorem cancel_workers_spec (need : Nat) :
    ∀ p : ThreadPool,
      (cancel_workers p need).1.workers = p.workers.drop need ∧
        (cancel_workers p need).1.cfg = p.cfg ∧
        (cancel_workers p need).1.queue = p.queue := by
  induction need with
  | zero => intro p; simp [cancel_workers]
  | succ need ih =>
    intro p
    obtain ⟨pc, pq, pw, pcw⟩ := p
    cases pw with
    | nil => simp [cancel_workers]
    | cons w rest =>
      simp only [cancel_workers]
      have := ih {
        cfg := pc, queue := pq,
        workers := rest, cancelled_workers := pcw ++ [(worker_cancel w).1] }
      simpa using this

theorem spawn_workers_spec (k : Nat) :
    ∀ p : ThreadPool,
      (spawn_workers p k).workers.length = p.workers.length + k ∧
        (spawn_workers p k).cfg = p.cfg ∧
        (spawn_workers p k).queue = p.queue := by
  induction k with
  | zero => intro p; simp [spawn_workers]
  | succ k ih =>
    intro p
    simp only [spawn_workers]
    have := ih { p with workers := p.workers ++ [(worker_run .Create).1] }
    simp only [List.length_append, List.length_cons, List.length_nil] at this
    obtain ⟨e1, e2, e3⟩ := this
    exact ⟨by rw [e1]; omega, e2, e3⟩

theorem clean_cancelled_workers_frame (p : ThreadPool) :
    (clean_cancelled_workers p).workers = p.workers ∧
      (clean_cancelled_workers p).cfg = p.cfg ∧
      (clean_cancelled_workers p).queue = p.queue := by
  simp [clean_cancelled_workers]

theorem resize_workers_len (p : ThreadPool) (n : Nat) :
    (resize_workers p n).workers.length
      = min (max n p.cfg.min_workers) p.cfg.max_workers := by
  rw [resize_workers]
  set ns := min (max n p.cfg.min_workers) p.cfg.max_workers with hns
  by_cases h1 : p.workers.length = ns
  · rw [if_pos h1]; exact h1
  · rw [if_neg h1]
    by_cases h2 : p.workers.length < ns
    · rw [if_pos h2]
      obtain ⟨e1, e2, _, _⟩ := reuse_workers_spec (ns - p.workers.length) p
      obtain ⟨f1, _, _⟩ := spawn_workers_spec
        ((ns - p.workers.length) - (reuse_workers p (ns - p.workers.length)).2)
        (reuse_workers p (ns - p.workers.length)).1
      rw [f1, e1, e2]
      omega
    · rw [if_neg h2]
      obtain ⟨e1, _, _⟩ := cancel_workers_spec (p.workers.length - ns) p
      have hlen : ((cancel_workers p (p.workers.length - ns)).1).workers.length = ns := by
        rw [e1, List.length_drop]
        omega
      split
      · rw [(clean_cancelled_workers_frame _).1, hlen]
      · exact hlen

theorem resize_workers_cfg (p : ThreadPool) (n : Nat) :
    (resize_workers p n).cfg = p.cfg := by
  rw [resize_workers]
  set ns := min (max n p.cfg.min_workers) p.cfg.max_workers with hns
  by_cases h1 : p.workers.length = ns
  · rw [if_pos h1]
  · rw [if_neg h1]
    by_cases h2 : p.workers.length < ns
    · rw [if_pos h2]
      obtain ⟨_, _, e3, _⟩ := reuse_workers_spec (ns - p.workers.length) p
      obtain ⟨_, f2, _⟩ := spawn_workers_spec
        ((ns - p.workers.length) - (reuse_workers p (ns - p.workers.length)).2)
        (reuse_workers p (ns - p.workers.length)).1
      rw [f2, e3]
    · rw [if_neg h2]
      obtain ⟨_, e2, _⟩ := cancel_workers_spec (p.workers.length - ns) p
      split
      · rw [(clean_cancelled_workers_frame _).2.1, e2]
      · exact e2

theorem release_workers_nil (p : ThreadPool) : (release p).workers = [] := by
  rw [release, (cancel_workers_spec _ p).1, List.drop_length]


/-! ## The claims -/

/-- C1: the spec says every policy in {FIFO, LIFO, PRIO, RAND} constructs
a `TaskQueue` with the matching internal structure.  On the code this
fails: `POLICY_CREATOR` registers creators only for `FIFO` and `LIFO`
(and the `TaskPolicy` enum has no `PRIO`/`RAND` value at all), although
the `PRIO`/`RAND` inner queues exist and the README documents all four
policies.  This theorem evaluates the creator map at every policy:
construction succeeds with the matching structure for `FIFO`/`LIFO` and
fails (`std::out_of_range` from `.at`) for `PRIO`/`RAND`. -/
theorem C1_policy_creator_registers_only_fifo_lifo :
    POLICY_CREATOR SpecTaskPolicy.FIFO = some (InnerState.fifo []) ∧
    POLICY_CREATOR SpecTaskPolicy.LIFO = some (InnerState.lifo []) ∧
    POLICY_CREATOR SpecTaskPolicy.PrioPol = none ∧
    POLICY_CREATOR SpecTaskPolicy.RandPol = none ∧
    mkTaskQueue SpecTaskPolicy.FIFO = some { inner := .fifo [], size := 0 } ∧
    mkTaskQueue SpecTaskPolicy.LIFO = some { inner := .lifo [], size := 0 } ∧
    mkTaskQueue SpecTaskPolicy.PrioPol = none ∧
    mkTaskQueue SpecTaskPolicy.RandPol = none := by
  decide

/-- C2: pushing t₁,…,tₙ into a freshly constructed queue and popping n
times returns the tasks in push order under FIFO and in reverse push
order under LIFO. -/
theorem C2_fifo_lifo_drain_order (ts : List Task) :
    drain_with fifo_pop ts.length (ts.foldl deque_push []) = ts ∧
    drain_with lifo_pop ts.length (ts.foldl deque_push []) = ts.reverse := by
  have h : ts.foldl deque_push [] = ts := by
    rw [foldl_deque_push ts []]
    simp
  rw [h]
  exact ⟨drain_with_fifo ts, drain_with_lifo ts⟩

/-- C3: invoking a task resolves its result channel exactly once — the
entry lambda performs exactly one promise store, holding the returned
value on normal return (the unit value for a `void` callable) and the
captured failure on a throw; the entry is a total function (the
`catch (...)` arm converts every throw into a store, so no failure
escapes the invocation). -/
theorem C3_invocation_resolves_channel_exactly_once (E V : Type)
    (f : Unit → Except E V) (g : Unit → Except E Unit) :
    wrap_entry f = [outcome_of (f ())] ∧
    (wrap_entry f).length = 1 ∧
    run_stores (wrap_entry f) none = some (outcome_of (f ())) ∧
    wrap_entry_void g = [outcome_of (g ())] ∧
    run_stores (wrap_entry_void g) none = some (outcome_of (g ())) ∧
    outcome_of (Except.ok () : Except E Unit) = TaskOutcome.value () := by
  refine ⟨?_, ?_, ?_, ?_, ?_, rfl⟩
  · cases hf : f () <;> simp [wrap_entry, outcome_of, hf]
  · cases hf : f () <;> simp [wrap_entry, hf]
  · cases hf : f () <;> simp [wrap_entry, outcome_of, run_stores, hf]
  · cases hg : g () <;> simp [wrap_entry_void, outcome_of, hg]
  · cases hg : g () <;> simp [wrap_entry_void, outcome_of, run_stores, hg]

/-- C4 as stated is violated by `release()`: the pool built from the
valid configuration `cex_cfg` (min_workers = 1) reaches, immediately
after `release()`, an active collection of 0 < min_workers workers —
`release` moves every active worker into the cancelled collection. -/
theorem C4_counterexample_release_empties_active :
    ((mkThreadPool cex_cfg).map fun p =>
        (p.workers.length, (release p).workers.length, p.cfg.min_workers))
      = some (8, 0, 1) ∧
    ¬ (1 ≤ (0 : Nat)) := by
  constructor
  · decide
  · decide

/-- C4 amended: `resize_workers(n)` clamps `n` into
`[min_workers, max_workers]` and leaves exactly that many active workers
(whenever `min_workers ≤ max_workers`), and a successfully constructed
pool satisfies the bound; `release()`, however, empties the active
collection (active count 0, below `min_workers` whenever it is
positive). -/
theorem C4_amended_resize_clamps_release_empties
    (p : ThreadPool) (n : Nat) (cfg : Config) (q : ThreadPool)
    (h : p.cfg.min_workers ≤ p.cfg.max_workers)
    (hmk : mkThreadPool cfg = some q) :
    (resize_workers p n).workers.length
        = min (max n p.cfg.min_workers) p.cfg.max_workers ∧
    p.cfg.min_workers ≤ (resize_workers p n).workers.length ∧
    (resize_workers p n).workers.length ≤ p.cfg.max_workers ∧
    q.workers.length
        = min (max cfg.init_workers cfg.min_workers) cfg.max_workers ∧
    cfg.min_workers ≤ q.workers.length ∧
    q.workers.length ≤ cfg.max_workers ∧
    (release p).workers.length = 0 := by
  rw [resize_workers_len]
  have hq : q.workers.length
        = min (max cfg.init_workers cfg.min_workers) cfg.max_workers ∧
      cfg.min_workers ≤ cfg.max_workers := by
    unfold mkThreadPool at hmk
    by_cases hle : cfg.max_workers < cfg.min_workers
    · rw [if_pos hle] at hmk
      exact absurd hmk (by simp)
    · rw [if_neg hle] at hmk
      obtain ⟨q0, _, hfe⟩ := Option.map_eq_some'.mp hmk
      rw [← hfe, resize_workers_len]
      dsimp only
      exact ⟨rfl, by omega⟩
  obtain ⟨hq1, hq2⟩ := hq
  refine ⟨rfl, by omega, by omega, hq1, by omega, by omega, ?_⟩
  rw [release_workers_nil]
  rfl

theorem C4_amended_witness :
    (resize_workers cex_pool0 5).workers.length
        = min (max 5 cex_pool0.cfg.min_workers) cex_pool0.cfg.max_workers ∧
    cex_pool0.cfg.min_workers ≤ (resize_workers cex_pool0 5).workers.length ∧
    (resize_workers cex_pool0 5).workers.length ≤ cex_pool0.cfg.max_workers ∧
    (resize_workers cex_pool0 8).workers.length
        = min (max cex_cfg.init_workers cex_cfg.min_workers) cex_cfg.max_workers ∧
    cex_cfg.min_workers ≤ (resize_workers cex_pool0 8).workers.length ∧
    (resize_workers cex_pool0 8).workers.length ≤ cex_cfg.max_workers ∧
    (release cex_pool0).workers.length = 0 :=
  C4_amended_resize_clamps_release_empties cex_pool0 5 cex_cfg
    (resize_workers cex_pool0 8) (by decide) (by decide)

/-- C5 as stated is violated on ties: push four tasks of equal (maximal)
priority 0 in id order 0,1,2,3.  The first pop returns id 0, after which
id 1 (the earliest-pushed of the stored tasks 1,2,3) is still stored —
yet the second pop removes id 2: `std::priority_queue` does not break
equal-priority ties by insertion order. -/
theorem C5_counterexample_ties_not_fifo :
    (heap_pop cex_prio_heap).1 = ⟨0, 0⟩ ∧
    Task.mk 0 1 ∈ (heap_pop cex_prio_heap).2 ∧
    (heap_pop (heap_pop cex_prio_heap).2).1 = ⟨0, 2⟩ ∧
    (⟨0, 2⟩ : Task) ≠ ⟨0, 1⟩ := by
  have h1 : cex_prio_heap = [⟨0, 0⟩, ⟨0, 1⟩, ⟨0, 2⟩, ⟨0, 3⟩] := by
    simp [cex_prio_heap, cex_prio_pushes, heap_push, pushHeapAux, taskLt, parentI]
  rw [h1]
  have h2 : heap_pop [⟨0, 0⟩, ⟨0, 1⟩, ⟨0, 2⟩, ⟨0, 3⟩] =
      (⟨0, 0⟩, [⟨0, 2⟩, ⟨0, 1⟩, ⟨0, 3⟩]) := by
    simp [heap_pop, adjust_heap, adjustDown, pushHeapAux, taskLt, parentI]
  rw [h2]
  have h3 : heap_pop [⟨0, 2⟩, ⟨0, 1⟩, ⟨0, 3⟩] = (⟨0, 2⟩, [⟨0, 1⟩, ⟨0, 3⟩]) := by
    simp [heap_pop, adjust_heap, adjustDown, pushHeapAux, taskLt, parentI]
  rw [h3]
  refine ⟨rfl, by simp, rfl, by decide⟩

/-- C5 amended: on every PRIO queue state reachable by pushes and pops,
a pop removes one stored task (the remainder plus the popped task is a
permutation of the stored tasks) whose priority is maximal among the
stored tasks; equal-priority ties are, however, not resolved in favour of
the earliest-pushed task (see the counterexample). -/
theorem C5_amended_pop_removes_max_priority_task
    (l : List Task) (hreach : PrioReachable l) (hne : l ≠ []) :
    (heap_pop l).1 ∈ l ∧
    (∀ t ∈ l, t.priority ≤ (heap_pop l).1.priority) ∧
    ((heap_pop l).1 :: (heap_pop l).2).Perm l := by
  have hh := hreach.isHeap
  have hpos : 0 < l.length := List.length_pos.mpr hne
  refine ⟨?_, isHeap_pop_max hh, heap_pop_perm l hne⟩
  have h0 : (heap_pop l).1 = l[0] := by
    rw [show (heap_pop l).1 = l.getD 0 default from rfl, getD_eq_getElem' _ _ hpos]
  rw [h0]
  exact List.getElem_mem hpos

theorem C5_amended_witness :
    (heap_pop wit_prio_heap).1 ∈ wit_prio_heap ∧
    (∀ t ∈ wit_prio_heap, t.priority ≤ (heap_pop wit_prio_heap).1.priority) ∧
    ((heap_pop wit_prio_heap).1 :: (heap_pop wit_prio_heap).2).Perm wit_prio_heap :=
  C5_amended_pop_removes_max_priority_task wit_prio_heap
    (PrioReachable.push _ _ (PrioReachable.push _ _ PrioReachable.init))
    (by simp [wit_prio_heap, heap_push, pushHeapAux, taskLt, parentI])

/-- C6 as stated is violated: after a successful `cancel()` (from
`Running`) the worker is in `CancelWait`, which is neither `Create` nor
`Cancel`, so an immediately following `cancel()` succeeds again and
returns `true`, not `false`. -/
theorem C6_counterexample_second_cancel_returns_true :
    worker_cancel WStatus.Running = (WStatus.CancelWait, true) ∧
    (worker_cancel (worker_cancel WStatus.Running).1).2 = true ∧
    (worker_cancel (worker_cancel WStatus.Running).1).2 ≠ false := by
  decide

/-- C6 amended: a successful `cancel()` leaves the worker in
`CancelWait`, and a second `cancel()` issued before any other transition
returns `true` again (re-storing `CancelWait`); `cancel()` returns
`false` exactly from `Create` and `Cancel`. -/
theorem C6_amended_second_cancel_true (s : WStatus)
    (h : (worker_cancel s).2 = true) :
    (worker_cancel s).1 = WStatus.CancelWait ∧
    (worker_cancel (worker_cancel s).1).2 = true ∧
    (worker_cancel (worker_cancel s).1).1 = WStatus.CancelWait ∧
    (worker_cancel WStatus.Create).2 = false ∧
    (worker_cancel WStatus.Cancel).2 = false := by
  cases s with
  | Create => simp [worker_cancel] at h
  | Cancel => simp [worker_cancel] at h
  | Running => exact ⟨rfl, rfl, rfl, rfl, rfl⟩
  | CancelWait => exact ⟨rfl, rfl, rfl, rfl, rfl⟩

theorem C6_amended_witness :
    (worker_cancel WStatus.Running).1 = WStatus.CancelWait ∧
    (worker_cancel (worker_cancel WStatus.Running).1).2 = true ∧
    (worker_cancel (worker_cancel WStatus.Running).1).1 = WStatus.CancelWait ∧
    (worker_cancel WStatus.Create).2 = false ∧
    (worker_cancel WStatus.Cancel).2 = false :=
  C6_amended_second_cancel_true WStatus.Running (by decide)

/-- C7: in a worker-loop iteration whose pop returned a task, the
iteration's event trace in program order is: the pop, then the complete
invocation of that task, and only then the locked lifecycle check — the
`Cancel` store and the loop exit occur strictly after the invocation and
only when that check observes `CancelWait`. -/
theorem C7_popped_task_runs_before_cancel_check
    (s_pop s_chk : WStatus) (q : TaskQueue) (t : Task)
    (h : (queue_pop_until (s_pop == WStatus.CancelWait) q).1 = some t) :
    (worker_iter s_pop s_chk q).1 =
      WEvent.evPop (some t) :: WEvent.evInvoke t ::
        (if s_chk = WStatus.CancelWait
          then [WEvent.evCheck s_chk, WEvent.evStoreCancel, WEvent.evExit]
          else [WEvent.evCheck s_chk]) ∧
    (worker_iter s_pop s_chk q).2.2 = decide (s_chk = WStatus.CancelWait) := by
  constructor
  · simp only [worker_iter, h]
    split_ifs <;> simp
  · simp only [worker_iter, h]
    split_ifs <;> simp_all

theorem C7_witness :
    (worker_iter WStatus.Running WStatus.CancelWait wit_queue).1 =
      WEvent.evPop (some ⟨0, 5⟩) :: WEvent.evInvoke ⟨0, 5⟩ ::
        (if WStatus.CancelWait = WStatus.CancelWait
          then [WEvent.evCheck WStatus.CancelWait, WEvent.evStoreCancel, WEvent.evExit]
          else [WEvent.evCheck WStatus.CancelWait]) ∧
    (worker_iter WStatus.Running WStatus.CancelWait wit_queue).2.2 =
      decide (WStatus.CancelWait = WStatus.CancelWait) :=
  C7_popped_task_runs_before_cancel_check WStatus.Running WStatus.CancelWait
    wit_queue ⟨0, 5⟩ (by decide)

/-- C8: on every reachable `TaskQueue` state the atomic size counter
equals the number of tasks in the inner structure; a push increments both
by exactly one and a successful pop decrements both by exactly one. -/
theorem C8_size_counter_matches_contents
    (q : TaskQueue) (t : Task) (rnd : Int) (h : QReach q) :
    q.size = inner_size q.inner ∧
    (queue_push q t rnd).size = q.size + 1 ∧
    inner_size (queue_push q t rnd).inner = inner_size q.inner + 1 ∧
    (q.size ≠ 0 →
      (queue_pop_impl q).2.size = q.size - 1 ∧
      inner_size (queue_pop_impl q).2.inner = inner_size q.inner - 1) := by
  refine ⟨qreach_size h, rfl, inner_push_size _ _ _, fun _ => ?_⟩
  rw [queue_pop_impl_snd]
  exact ⟨rfl, inner_pop_size _⟩

theorem C8_witness :
    wit_queue.size = inner_size wit_queue.inner ∧
    (queue_pop_impl wit_queue).2.size = wit_queue.size - 1 ∧
    inner_size (queue_pop_impl wit_queue).2.inner = inner_size wit_queue.inner - 1 := by
  have h := C8_size_counter_matches_contents wit_queue ⟨0, 9⟩ 0
    (QReach.push _ _ _ (QReach.init (.fifo []) rfl))
  exact ⟨h.1, h.2.2.2 (by decide)⟩

/-- C9: `ThreadPool::push` obtains the completion handle from the task,
pushes the task into the pool's queue, and returns the handle; the active
collection, the cancelled collection and the configuration are left
untouched. -/
theorem C9_submit_frame (p : ThreadPool) (t : Task) (rnd : Int) :
    (pool_push p t rnd).1 = t.get_future ∧
    (pool_push p t rnd).2.queue = queue_push p.queue t rnd ∧
    (pool_push p t rnd).2.workers = p.workers ∧
    (pool_push p t rnd).2.cancelled_workers = p.cancelled_workers ∧
    (pool_push p t rnd).2.cfg = p.cfg :=
  ⟨rfl, rfl, rfl, rfl, rfl⟩

/-- C10: in the predicate-guarded pop the user predicate is evaluated
before the non-emptiness test (the `is_user_pred` latch equals the
predicate's value regardless of emptiness); when the wait completed
because the predicate was true the call returns nothing and leaves the
queue untouched even if it is non-empty, and a task is removed exactly
when the predicate was false and the queue non-empty. -/
theorem C10_pop_until_pred_tested_first (pred : Bool) (q : TaskQueue)
    (hwait : (wait_check pred (q.size == 0)).1 = true) :
    (wait_check pred (q.size == 0)).2 = pred ∧
    (pred = true → queue_pop_until pred q = (none, q)) ∧
    (pred = false →
      queue_pop_until pred q = (some (queue_pop_impl q).1, (queue_pop_impl q).2) ∧
      q.size ≠ 0) := by
  cases pred with
  | true =>
    refine ⟨rfl, ?_, ?_⟩
    · intro _; rfl
    · intro hf; cases hf
  | false =>
    refine ⟨rfl, ?_, ?_⟩
    · intro ht; cases ht
    · intro _
      refine ⟨rfl, ?_⟩
      simp only [wait_check, if_neg (by simp : ¬ (false = true)), Bool.not_eq_true'] at hwait
      simpa using hwait

theorem C10_witness :
    (wait_check true (wit_queue.size == 0)).2 = true ∧
    queue_pop_until true wit_queue = (none, wit_queue) ∧
    wit_queue.size ≠ 0 := by
  have h := C10_pop_until_pred_tested_first true wit_queue (by decide)
  exact ⟨h.1, h.2.1 rfl, by decide⟩

end Nexus
